import Mathlib

/-!
Verification development for the geo-intel-offline engine.

The repository snapshot contains the package entry point, test drivers and
scripts, but not the engine modules themselves (geohash codec, point in
polygon, loader, resolvers).  Those components are therefore modelled here
directly from the specification, and the properties of the specification are
settled against this model.  Coordinates are rational numbers, machine floats
being out of scope for the algorithmic content of the claims.
-/

set_option maxRecDepth 4000

namespace GeoIntel

/-- Modelled from the spec: the error kinds of section 7 that the engine
surfaces to callers (`InvalidCoordinate` from `encode` and the forward
resolver, `EmptyQuery` from the reverse resolver). -/
inductive GeoError where
  | invalidCoordinate
  | emptyQuery
  deriving DecidableEq, Repr

/-- A half-open refinement interval used by the geohash codec. -/
structure Iv where
  lo : ℚ
  hi : ℚ
  deriving DecidableEq, Repr

/-- Center of a refinement interval. -/
def Iv.mid (iv : Iv) : ℚ := (iv.lo + iv.hi) / 2

/-- Modelled from the spec: one step of the classic interleaved-bit geohash
encoding -- compare the coordinate with the midpoint of the current interval,
emit a bit and keep the matching half. -/
def refineBit (x : ℚ) (iv : Iv) : Bool × Iv :=
  if iv.mid ≤ x then (true, ⟨iv.mid, iv.hi⟩) else (false, ⟨iv.lo, iv.mid⟩)

/-- Modelled from the spec: one step of geohash decoding -- keep the half of
the interval selected by the bit. -/
def applyBit (b : Bool) (iv : Iv) : Iv :=
  if b then ⟨iv.mid, iv.hi⟩ else ⟨iv.lo, iv.mid⟩

/-- Modelled from the spec: the bit stream of the classic geohash algorithm,
alternating longitude (even positions, `isLon = true` first) and latitude. -/
def encodeBits (lat lon : ℚ) : Nat → Bool → Iv → Iv → List Bool
  | 0, _, _, _ => []
  | n + 1, true, latIv, lonIv =>
    (refineBit lon lonIv).1 :: encodeBits lat lon n false latIv (refineBit lon lonIv).2
  | n + 1, false, latIv, lonIv =>
    (refineBit lat latIv).1 :: encodeBits lat lon n true (refineBit lat latIv).2 lonIv

/-- Modelled from the spec: decoding a geohash bit stream back into the pair
of latitude and longitude intervals. -/
def decodeBitsAux : List Bool → Bool → Iv → Iv → Iv × Iv
  | [], _, latIv, lonIv => (latIv, lonIv)
  | b :: bs, true, latIv, lonIv => decodeBitsAux bs false latIv (applyBit b lonIv)
  | b :: bs, false, latIv, lonIv => decodeBitsAux bs true (applyBit b latIv) lonIv

/-- The standard geohash base32 alphabet `0123456789bcdefghjkmnpqrstuvwxyz`. -/
def base32Chars : List Char :=
  ['0', '1', '2', '3', '4', '5', '6', '7', '8', '9', 'b', 'c', 'd', 'e', 'f', 'g',
   'h', 'j', 'k', 'm', 'n', 'p', 'q', 'r', 's', 't', 'u', 'v', 'w', 'x', 'y', 'z']

/-- Digit value (0..31) to base32 character. -/
def valToChar (v : Nat) : Char := base32Chars.getD v '?'

/-- Base32 character back to its digit value; `none` on characters outside
the geohash alphabet. -/
def charToVal (c : Char) : Option Nat :=
  base32Chars.findIdx? (fun x => x == c)

/-- Five bits (most significant first) to a base32 digit value. -/
def bitsToVal5 (b0 b1 b2 b3 b4 : Bool) : Nat :=
  (cond b0 16 0) + (cond b1 8 0) + (cond b2 4 0) + (cond b3 2 0) + (cond b4 1 0)

/-- Group a bit stream into base32 digit values, five bits per digit. -/
def bitsToVals : List Bool → List Nat
  | b0 :: b1 :: b2 :: b3 :: b4 :: rest => bitsToVal5 b0 b1 b2 b3 b4 :: bitsToVals rest
  | _ => []

/-- A base32 digit value back to its five bits, most significant first. -/
def valToBits (v : Nat) : List Bool :=
  [decide (v / 16 % 2 = 1), decide (v / 8 % 2 = 1), decide (v / 4 % 2 = 1),
   decide (v / 2 % 2 = 1), decide (v % 2 = 1)]

/-- Map a character list to digit values, failing on any invalid character. -/
def charsToVals : List Char → Option (List Nat)
  | [] => some []
  | c :: cs =>
    match charToVal c, charsToVals cs with
    | some v, some vs => some (v :: vs)
    | _, _ => none

/-- The full latitude range of the geohash grid. -/
def latRange : Iv := ⟨-90, 90⟩

/-- The full longitude range of the geohash grid. -/
def lonRange : Iv := ⟨-180, 180⟩

/-- Modelled from the spec: the geohash string of a point at a given
precision (characters of the alphabet, five interleaved bits per
character, longitude bit first). -/
def geohashOf (lat lon : ℚ) (precision : Nat) : String :=
  String.mk ((bitsToVals (encodeBits lat lon (5 * precision) true latRange lonRange)).map valToChar)

/-- The coordinate validation shared by `encode` and the forward resolver. -/
def coordOutOfRange (lat lon : ℚ) : Bool :=
  decide (lat < -90) || decide (90 < lat) || decide (lon < -180) || decide (180 < lon)

/-- Modelled from the spec: `encode(lat, lon, precision)`; out-of-range inputs
fail with `InvalidCoordinate`. -/
def encode (lat lon : ℚ) (precision : Nat := 6) : Except GeoError String :=
  if coordOutOfRange lat lon then .error .invalidCoordinate
  else .ok (geohashOf lat lon precision)

/-- Modelled from the spec: `decode(hash)` returning the cell center and the
half-spans, so that the cell is `center ± half-span` on each axis. -/
def decode (h : String) : Option (ℚ × ℚ × ℚ × ℚ) :=
  match charsToVals h.data with
  | none => none
  | some vals =>
    let bits := (vals.map valToBits).flatten
    let r := decodeBitsAux bits true latRange lonRange
    some (r.1.mid, r.2.mid, (r.1.hi - r.1.lo) / 2, (r.2.hi - r.2.lo) / 2)

/-- Membership of a coordinate in a refinement interval. -/
def memIv (x : ℚ) (iv : Iv) : Prop := iv.lo ≤ x ∧ x ≤ iv.hi

theorem refineBit_snd (x : ℚ) (iv : Iv) :
    (refineBit x iv).2 = applyBit (refineBit x iv).1 iv := by
  unfold refineBit applyBit
  split <;> simp

theorem memIv_refineBit {x : ℚ} {iv : Iv} (h : memIv x iv) : memIv x (refineBit x iv).2 := by
  obtain ⟨h1, h2⟩ := h
  unfold refineBit
  split
  · exact ⟨by assumption, h2⟩
  · exact ⟨h1, le_of_lt (by linarith [lt_of_not_le (by assumption : ¬ Iv.mid iv ≤ x)])⟩

theorem decode_encodeBits (lat lon : ℚ) :
    ∀ (n : Nat) (isLon : Bool) (latIv lonIv : Iv),
      memIv lat latIv → memIv lon lonIv →
      memIv lat (decodeBitsAux (encodeBits lat lon n isLon latIv lonIv) isLon latIv lonIv).1 ∧
      memIv lon (decodeBitsAux (encodeBits lat lon n isLon latIv lonIv) isLon latIv lonIv).2 := by
  intro n
  induction n with
  | zero =>
    intro isLon latIv lonIv h1 h2
    cases isLon <;> exact ⟨h1, h2⟩
  | succ n ih =>
    intro isLon latIv lonIv h1 h2
    cases isLon with
    | true =>
      have hs := refineBit_snd lon lonIv
      simpa [encodeBits, decodeBitsAux, ← hs] using
        ih false latIv (refineBit lon lonIv).2 h1 (memIv_refineBit h2)
    | false =>
      have hs := refineBit_snd lat latIv
      simpa [encodeBits, decodeBitsAux, ← hs] using
        ih true (refineBit lat latIv).2 lonIv (memIv_refineBit h1) h2

theorem encodeBits_length (lat lon : ℚ) :
    ∀ (n : Nat) (isLon : Bool) (latIv lonIv : Iv),
      (encodeBits lat lon n isLon latIv lonIv).length = n := by
  intro n
  induction n with
  | zero => intro isLon latIv lonIv; cases isLon <;> rfl
  | succ n ih =>
    intro isLon latIv lonIv
    cases isLon <;> simp [encodeBits, ih]

theorem valToBits_bitsToVal5 :
    ∀ b0 b1 b2 b3 b4 : Bool, valToBits (bitsToVal5 b0 b1 b2 b3 b4) = [b0, b1, b2, b3, b4] := by
  decide

theorem bitsToVal5_lt : ∀ b0 b1 b2 b3 b4 : Bool, bitsToVal5 b0 b1 b2 b3 b4 < 32 := by
  decide

theorem join_valToBits_bitsToVals :
    ∀ (k : Nat) (bits : List Bool), bits.length = 5 * k →
      ((bitsToVals bits).map valToBits).flatten = bits := by
  intro k
  induction k with
  | zero =>
    intro bits h
    have : bits = [] := List.eq_nil_of_length_eq_zero (by omega)
    subst this
    rfl
  | succ k ih =>
    intro bits h
    match bits with
    | [] => simp only [List.length_nil] at h; omega
    | [b0] => simp only [List.length_cons, List.length_nil] at h; omega
    | [b0, b1] => simp only [List.length_cons, List.length_nil] at h; omega
    | [b0, b1, b2] => simp only [List.length_cons, List.length_nil] at h; omega
    | [b0, b1, b2, b3] => simp only [List.length_cons, List.length_nil] at h; omega
    | b0 :: b1 :: b2 :: b3 :: b4 :: rest =>
      have hrest : rest.length = 5 * k := by
        simp only [List.length_cons] at h; omega
      simp only [bitsToVals, List.map_cons, List.flatten_cons, valToBits_bitsToVal5]
      rw [ih rest hrest]
      rfl

theorem bitsToVals_lt :
    ∀ (n : Nat) (bits : List Bool), bits.length ≤ n → ∀ v ∈ bitsToVals bits, v < 32 := by
  intro n
  induction n with
  | zero =>
    intro bits h v hv
    have : bits = [] := List.eq_nil_of_length_eq_zero (by omega)
    subst this
    simp [bitsToVals] at hv
  | succ n ih =>
    intro bits h v hv
    match bits with
    | [] => simp [bitsToVals] at hv
    | [b0] => simp [bitsToVals] at hv
    | [b0, b1] => simp [bitsToVals] at hv
    | [b0, b1, b2] => simp [bitsToVals] at hv
    | [b0, b1, b2, b3] => simp [bitsToVals] at hv
    | b0 :: b1 :: b2 :: b3 :: b4 :: rest =>
      simp only [bitsToVals, List.mem_cons] at hv
      rcases hv with hv | hv
      · subst hv; exact bitsToVal5_lt b0 b1 b2 b3 b4
      · exact ih rest (by simp at h; omega) v hv

theorem charToVal_valToChar_fin : ∀ v : Fin 32, charToVal (valToChar v.val) = some v.val := by
  decide

theorem charToVal_valToChar {v : Nat} (h : v < 32) : charToVal (valToChar v) = some v :=
  charToVal_valToChar_fin ⟨v, h⟩

theorem charsToVals_map_valToChar :
    ∀ (vals : List Nat), (∀ v ∈ vals, v < 32) →
      charsToVals (vals.map valToChar) = some vals := by
  intro vals
  induction vals with
  | nil => intro _; rfl
  | cons v vs ih =>
    intro h
    have hv : v < 32 := h v (by simp)
    have hvs := ih (fun w hw => h w (by simp [hw]))
    simp [charsToVals, charToVal_valToChar hv, hvs]

theorem abs_sub_mid {x : ℚ} {iv : Iv} (h : memIv x iv) : |x - iv.mid| ≤ (iv.hi - iv.lo) / 2 := by
  obtain ⟨h1, h2⟩ := h
  rw [abs_le]
  constructor <;> (unfold Iv.mid; linarith)

/-- C2: for every latitude in `[-90, 90]`, longitude in `[-180, 180]` and
precision `k` in `[1, 12]`, encoding succeeds and decoding the produced
geohash yields a cell center and half-spans with `|lat - latC| ≤ latH` and
`|lon - lonC| ≤ lonH`, i.e. the original point lies within the decoded cell. -/
theorem decode_encode_within_cell (lat lon : ℚ) (k : Nat)
    (hlat1 : -90 ≤ lat) (hlat2 : lat ≤ 90) (hlon1 : -180 ≤ lon) (hlon2 : lon ≤ 180)
    (hk1 : 1 ≤ k) (hk2 : k ≤ 12) :
    ∃ s latC lonC latH lonH,
      encode lat lon k = .ok s ∧ decode s = some (latC, lonC, latH, lonH) ∧
      |lat - latC| ≤ latH ∧ |lon - lonC| ≤ lonH := by
  have hrange : coordOutOfRange lat lon = false := by
    unfold coordOutOfRange
    simp only [Bool.or_eq_false_iff, decide_eq_false_iff_not, not_lt]
    exact ⟨⟨⟨hlat1, hlat2⟩, hlon1⟩, hlon2⟩
  set bits := encodeBits lat lon (5 * k) true latRange lonRange with hbits
  have hlen : bits.length = 5 * k := encodeBits_length lat lon (5 * k) true latRange lonRange
  have hlt : ∀ v ∈ bitsToVals bits, v < 32 := bitsToVals_lt bits.length bits le_rfl
  have hdata : (geohashOf lat lon k).data = (bitsToVals bits).map valToChar := rfl
  have hvals : charsToVals ((bitsToVals bits).map valToChar) = some (bitsToVals bits) :=
    charsToVals_map_valToChar (bitsToVals bits) hlt
  have hjoin : ((bitsToVals bits).map valToBits).flatten = bits :=
    join_valToBits_bitsToVals k bits hlen
  have hmem := decode_encodeBits lat lon (5 * k) true latRange lonRange
    ⟨hlat1, hlat2⟩ ⟨hlon1, hlon2⟩
  set r := decodeBitsAux bits true latRange lonRange with hr
  refine ⟨geohashOf lat lon k, r.1.mid, r.2.mid, (r.1.hi - r.1.lo) / 2, (r.2.hi - r.2.lo) / 2,
    ?_, ?_, ?_, ?_⟩
  · unfold encode
    rw [hrange]
    rfl
  · unfold decode
    rw [hdata, hvals]
    simp only [hjoin, ← hr]
  · exact abs_sub_mid hmem.1
  · exact abs_sub_mid hmem.2

/-- Witness for C2 at the concrete point `(1/2, 1/2)` and precision 6. -/
theorem decode_encode_within_cell_witness :
    ∃ s latC lonC latH lonH,
      encode (1/2 : ℚ) (1/2 : ℚ) 6 = .ok s ∧ decode s = some (latC, lonC, latH, lonH) ∧
      |(1/2 : ℚ) - latC| ≤ latH ∧ |(1/2 : ℚ) - lonC| ≤ lonH :=
  decode_encode_within_cell (1/2) (1/2) 6 (by norm_num) (by norm_num) (by norm_num)
    (by norm_num) (by norm_num) (by norm_num)

/-- Interleave two bit lists, starting with the first (the longitude list in
the geohash layout). -/
def interleave : List Bool → List Bool → List Bool
  | [], ys => ys
  | x :: xs, [] => x :: xs
  | x :: xs, y :: ys => x :: y :: interleave xs ys

/-- Split a bit list into the sublists of even and odd positions. -/
def deinterleave : List Bool → List Bool × List Bool
  | [] => ([], [])
  | x :: xs => (x :: (deinterleave xs).2, (deinterleave xs).1)

/-- Value of a bit list read as a binary number, most significant bit first. -/
def bitsToNat : List Bool → Nat
  | [] => 0
  | b :: bs => (cond b 1 0) * 2 ^ bs.length + bitsToNat bs

/-- Fixed-width binary representation of a number, most significant bit
first. -/
def natToBits : Nat → Nat → List Bool
  | 0, _ => []
  | w + 1, n => natToBits w (n / 2) ++ [decide (n % 2 = 1)]

theorem interleave_length :
    ∀ (xs ys : List Bool), (interleave xs ys).length = xs.length + ys.length := by
  intro xs
  induction xs with
  | nil => intro ys; simp [interleave]
  | cons x xs ih =>
    intro ys
    cases ys with
    | nil => simp [interleave]
    | cons y ys =>
      simp only [interleave, List.length_cons, ih]
      try omega

theorem deinterleave_interleave :
    ∀ (xs ys : List Bool), ys.length ≤ xs.length → xs.length ≤ ys.length + 1 →
      deinterleave (interleave xs ys) = (xs, ys) := by
  intro xs
  induction xs with
  | nil =>
    intro ys h1 h2
    simp only [List.length_nil] at h1
    have hy : ys = [] := List.eq_nil_of_length_eq_zero (by omega)
    subst hy
    simp [interleave, deinterleave]
  | cons x xs ih =>
    intro ys h1 h2
    cases ys with
    | nil =>
      simp only [List.length_cons, List.length_nil] at h2
      have hx : xs = [] := List.eq_nil_of_length_eq_zero (by omega)
      subst hx
      simp [interleave, deinterleave]
    | cons y ys =>
      simp only [List.length_cons] at h1 h2
      have hrec := ih ys (by omega) (by omega)
      simp [interleave, deinterleave, hrec]

theorem deinterleave_lengths :
    ∀ (l : List Bool), (deinterleave l).1.length = (l.length + 1) / 2 ∧
      (deinterleave l).2.length = l.length / 2 := by
  intro l
  induction l with
  | nil => exact ⟨rfl, rfl⟩
  | cons x xs ih =>
    obtain ⟨h1, h2⟩ := ih
    constructor
    · simp only [deinterleave, List.length_cons, h2]
      omega
    · simp only [deinterleave, List.length_cons, h1]
      try omega

theorem bitsToNat_lt : ∀ (l : List Bool), bitsToNat l < 2 ^ l.length := by
  intro l
  induction l with
  | nil => simp [bitsToNat]
  | cons b bs ih =>
    simp only [bitsToNat, List.length_cons, pow_succ]
    have hpos : 0 < 2 ^ bs.length := Nat.pos_pow_of_pos _ (by norm_num)
    cases b <;> simp <;> omega

theorem bitsToNat_append_bit (l : List Bool) (b : Bool) :
    bitsToNat (l ++ [b]) = 2 * bitsToNat l + cond b 1 0 := by
  induction l with
  | nil => cases b <;> simp [bitsToNat]
  | cons x xs ih =>
    have hl : (xs ++ [b]).length = xs.length + 1 := by simp
    simp only [List.cons_append, bitsToNat, List.append_eq, ih, hl, pow_succ]
    ring

theorem natToBits_length : ∀ (w n : Nat), (natToBits w n).length = w := by
  intro w
  induction w with
  | zero => intro n; rfl
  | succ w ih => intro n; simp [natToBits, ih]

theorem bitsToNat_natToBits : ∀ (w n : Nat), n < 2 ^ w → bitsToNat (natToBits w n) = n := by
  intro w
  induction w with
  | zero =>
    intro n h
    simp only [pow_zero, Nat.lt_one_iff] at h
    subst h
    rfl
  | succ w ih =>
    intro n h
    have hdiv : n / 2 < 2 ^ w := by
      rw [Nat.div_lt_iff_lt_mul (by norm_num)]
      calc n < 2 ^ (w + 1) := h
        _ = 2 ^ w * 2 := pow_succ 2 w
    rw [natToBits, bitsToNat_append_bit, ih (n / 2) hdiv]
    have hb : (cond (decide (n % 2 = 1)) 1 0) = n % 2 := by
      rcases Nat.mod_two_eq_zero_or_one n with hm | hm <;> simp [hm]
    rw [hb]
    omega

/-- The grid data read from a digit-value list: latitude index, longitude
index, latitude bit width, longitude bit width (longitude bits sit at the
even positions of the interleaved bit stream). -/
def idxOfVals (vals : List Nat) : Nat × Nat × Nat × Nat :=
  (bitsToNat (deinterleave ((vals.map valToBits).flatten)).2,
   bitsToNat (deinterleave ((vals.map valToBits).flatten)).1,
   (deinterleave ((vals.map valToBits).flatten)).2.length,
   (deinterleave ((vals.map valToBits).flatten)).1.length)

/-- Parse a geohash string into its cell grid indices and bit widths;
`none` on characters outside the geohash alphabet. -/
def parseIdx (h : String) : Option (Nat × Nat × Nat × Nat) :=
  (charsToVals h.data).map idxOfVals

/-- Rebuild a geohash string from cell grid indices and bit widths. -/
def hashOfIdx (latIdx lonIdx wlat wlon : Nat) : String :=
  String.mk ((bitsToVals (interleave (natToBits wlon lonIdx) (natToBits wlat latIdx))).map valToChar)

/-- Clamp a shifted latitude index into the valid grid rows `[0, H-1]`. -/
def clampLat (latIdx : Nat) (d : Int) (H : Nat) : Nat :=
  if (latIdx : Int) + d < 0 then 0
  else if (H : Int) - 1 < (latIdx : Int) + d then H - 1
  else ((latIdx : Int) + d).toNat

/-- Wrap a shifted longitude index around the grid of `W` columns. -/
def wrapLon (lonIdx : Nat) (d : Int) (W : Nat) : Nat :=
  (((lonIdx : Int) + d) % (W : Int)).toNat

/-- Modelled from the spec: `neighbors(hash)` -- the eight cardinal and
diagonal neighbors in the stable order N, NE, E, SE, S, SW, W, NW, obtained
by shifting the cell's grid indices; the longitude index wraps around the
grid and the latitude index is clamped at the poles, so the list always has
exactly eight entries.  An invalid hash yields the empty list. -/
def get_neighbors (h : String) : List String :=
  match parseIdx h with
  | none => []
  | some (latIdx, lonIdx, wlat, wlon) =>
    [hashOfIdx (clampLat latIdx 1 (2 ^ wlat)) (wrapLon lonIdx 0 (2 ^ wlon)) wlat wlon,
     hashOfIdx (clampLat latIdx 1 (2 ^ wlat)) (wrapLon lonIdx 1 (2 ^ wlon)) wlat wlon,
     hashOfIdx (clampLat latIdx 0 (2 ^ wlat)) (wrapLon lonIdx 1 (2 ^ wlon)) wlat wlon,
     hashOfIdx (clampLat latIdx (-1) (2 ^ wlat)) (wrapLon lonIdx 1 (2 ^ wlon)) wlat wlon,
     hashOfIdx (clampLat latIdx (-1) (2 ^ wlat)) (wrapLon lonIdx 0 (2 ^ wlon)) wlat wlon,
     hashOfIdx (clampLat latIdx (-1) (2 ^ wlat)) (wrapLon lonIdx (-1) (2 ^ wlon)) wlat wlon,
     hashOfIdx (clampLat latIdx 0 (2 ^ wlat)) (wrapLon lonIdx (-1) (2 ^ wlon)) wlat wlon,
     hashOfIdx (clampLat latIdx 1 (2 ^ wlat)) (wrapLon lonIdx (-1) (2 ^ wlon)) wlat wlon]

theorem flatten_map_valToBits_length :
    ∀ (vals : List Nat), ((vals.map valToBits).flatten).length = 5 * vals.length := by
  intro vals
  induction vals with
  | nil => rfl
  | cons v vs ih =>
    simp only [List.map_cons, List.flatten_cons, List.length_append, ih, List.length_cons]
    have hv : (valToBits v).length = 5 := rfl
    omega

theorem parseIdx_bounds {h : String} {li lo wlat wlon : Nat}
    (hp : parseIdx h = some (li, lo, wlat, wlon)) :
    li < 2 ^ wlat ∧ lo < 2 ^ wlon ∧ wlat ≤ wlon ∧ wlon ≤ wlat + 1 ∧
      ∃ k, wlon + wlat = 5 * k := by
  unfold parseIdx at hp
  rw [Option.map_eq_some'] at hp
  obtain ⟨vals, hv, hidx⟩ := hp
  unfold idxOfVals at hidx
  simp only [Prod.mk.injEq] at hidx
  obtain ⟨hli, hlo, hwlat, hwlon⟩ := hidx
  subst hli
  subst hlo
  subst hwlat
  subst hwlon
  have hlen := flatten_map_valToBits_length vals
  have hd := deinterleave_lengths ((vals.map valToBits).flatten)
  refine ⟨bitsToNat_lt _, bitsToNat_lt _, ?_, ?_, vals.length, ?_⟩
  · rw [hd.1, hd.2]
    omega
  · rw [hd.1, hd.2]
    omega
  · rw [hd.1, hd.2]
    omega

theorem parseIdx_hashOfIdx (latIdx lonIdx wlat wlon k : Nat)
    (hw1 : wlat ≤ wlon) (hw2 : wlon ≤ wlat + 1) (hk : wlon + wlat = 5 * k)
    (hlat : latIdx < 2 ^ wlat) (hlon : lonIdx < 2 ^ wlon) :
    parseIdx (hashOfIdx latIdx lonIdx wlat wlon) = some (latIdx, lonIdx, wlat, wlon) := by
  have hlen : (interleave (natToBits wlon lonIdx) (natToBits wlat latIdx)).length =
      wlon + wlat := by
    rw [interleave_length, natToBits_length, natToBits_length]
  have hlt := bitsToVals_lt (interleave (natToBits wlon lonIdx) (natToBits wlat latIdx)).length
    (interleave (natToBits wlon lonIdx) (natToBits wlat latIdx)) le_rfl
  have hdata : (hashOfIdx latIdx lonIdx wlat wlon).data =
      (bitsToVals (interleave (natToBits wlon lonIdx) (natToBits wlat latIdx))).map
        valToChar := rfl
  have hvals := charsToVals_map_valToChar _ hlt
  have hjoin := join_valToBits_bitsToVals k
    (interleave (natToBits wlon lonIdx) (natToBits wlat latIdx)) (by rw [hlen]; exact hk)
  have hde : deinterleave (interleave (natToBits wlon lonIdx) (natToBits wlat latIdx)) =
      (natToBits wlon lonIdx, natToBits wlat latIdx) :=
    deinterleave_interleave _ _ (by rw [natToBits_length, natToBits_length]; omega)
      (by rw [natToBits_length, natToBits_length]; omega)
  unfold parseIdx
  rw [hdata, hvals, Option.map_some']
  unfold idxOfVals
  rw [hjoin, hde]
  simp only [Option.some.injEq, Prod.mk.injEq]
  exact ⟨bitsToNat_natToBits wlat latIdx hlat, bitsToNat_natToBits wlon lonIdx hlon,
    natToBits_length wlat latIdx, natToBits_length wlon lonIdx⟩

theorem clampLat_lt {li : Nat} (d : Int) {H : Nat} (hH : 0 < H) : clampLat li d H < H := by
  unfold clampLat
  split_ifs <;> omega

theorem clampLat_val {li : Nat} {d : Int} {H : Nat} (h0 : 0 ≤ (li : Int) + d)
    (h1 : (li : Int) + d ≤ (H : Int) - 1) : clampLat li d H = ((li : Int) + d).toNat := by
  unfold clampLat
  split_ifs <;> omega

theorem wrapLon_lt {lo : Nat} (d : Int) {W : Nat} (hW : 0 < W) : wrapLon lo d W < W := by
  unfold wrapLon
  have h1 : 0 ≤ ((lo : Int) + d) % (W : Int) := Int.emod_nonneg _ (by omega)
  have h2 : ((lo : Int) + d) % (W : Int) < (W : Int) := Int.emod_lt_of_pos _ (by omega)
  omega

theorem wrapLon_zero {lo W : Nat} (h : lo < W) : wrapLon lo 0 W = lo := by
  unfold wrapLon
  rw [add_zero, Int.emod_eq_of_lt (by omega) (by omega)]
  omega

theorem wrapLon_one {lo W : Nat} (h : lo < W) :
    wrapLon lo 1 W = if lo + 1 = W then 0 else lo + 1 := by
  unfold wrapLon
  by_cases hc : lo + 1 = W
  · rw [if_pos hc]
    have he : (lo : Int) + 1 = (W : Int) := by omega
    rw [he, Int.emod_self]
    rfl
  · rw [if_neg hc, Int.emod_eq_of_lt (by omega) (by omega)]
    omega

theorem wrapLon_negOne {lo W : Nat} (h : lo < W) (hW : 0 < W) :
    wrapLon lo (-1) W = if lo = 0 then W - 1 else lo - 1 := by
  unfold wrapLon
  by_cases hc : lo = 0
  · rw [if_pos hc]
    subst hc
    have he : ((0 : Nat) : Int) + (-1) = ((W : Int) - 1) + (W : Int) * (-1) := by ring
    rw [he, Int.add_mul_emod_self_left, Int.emod_eq_of_lt (by omega) (by omega)]
    omega
  · rw [if_neg hc, Int.emod_eq_of_lt (by omega) (by omega)]
    omega

/-- C3 (amended): `neighbors` returns exactly eight strings for every valid
geohash, in the fixed order N, NE, E, SE, S, SW, W, NW; the east neighbor of
the last column wraps around to column zero; and for every valid geohash
whose latitude row is neither the bottom row nor the top row, the eight
strings are pairwise distinct and the input hash is not among them.  (At the
polar rows the clamped north/south entries can coincide with each other or
with the input hash, refuting the unrestricted distinctness of the original
claim; see the counterexample.) -/
theorem neighbors_spec :
    (∀ (h : String) (li lo wlat wlon : Nat), parseIdx h = some (li, lo, wlat, wlon) →
      (get_neighbors h).length = 8) ∧
    (∀ (h : String) (li lo wlat wlon : Nat), parseIdx h = some (li, lo, wlat, wlon) →
      lo + 1 = 2 ^ wlon →
      parseIdx ((get_neighbors h).getD 2 "") = some (li, 0, wlat, wlon)) ∧
    (∀ (h : String) (li lo wlat wlon : Nat), parseIdx h = some (li, lo, wlat, wlon) →
      1 ≤ li → li + 1 < 2 ^ wlat →
      (get_neighbors h).Nodup ∧ h ∉ get_neighbors h) := by
  refine ⟨?_, ?_, ?_⟩
  · intro h li lo wlat wlon hp
    unfold get_neighbors
    rw [hp]
    rfl
  · intro h li lo wlat wlon hp hwrap
    obtain ⟨hliH, hloW, hw1, hw2, k, hk⟩ := parseIdx_bounds hp
    have hng : (get_neighbors h).getD 2 "" =
        hashOfIdx (clampLat li 0 (2 ^ wlat)) (wrapLon lo 1 (2 ^ wlon)) wlat wlon := by
      unfold get_neighbors
      rw [hp]
      rfl
    rw [hng, clampLat_val (by omega) (by omega)]
    have h2 : wrapLon lo 1 (2 ^ wlon) = 0 := by
      rw [wrapLon_one hloW, if_pos hwrap]
    rw [h2]
    have h3 : ((li : Int) + 0).toNat = li := by omega
    rw [h3]
    exact parseIdx_hashOfIdx li 0 wlat wlon k hw1 hw2 hk hliH (by omega)
  · intro h li lo wlat wlon hp hli1 hli2
    obtain ⟨hliH, hloW, hw1, hw2, k, hk⟩ := parseIdx_bounds hp
    have hW3 : 3 ≤ 2 ^ wlon := by
      have h1 : 3 ≤ 2 ^ wlat := by omega
      calc 3 ≤ 2 ^ wlat := h1
        _ ≤ 2 ^ wlon := Nat.pow_le_pow_right (by norm_num) hw1
    have hcN : clampLat li 1 (2 ^ wlat) = li + 1 := by
      rw [clampLat_val (by omega) (by omega)]
      omega
    have hc0 : clampLat li 0 (2 ^ wlat) = li := by
      rw [clampLat_val (by omega) (by omega)]
      omega
    have hcS : clampLat li (-1) (2 ^ wlat) = li - 1 := by
      rw [clampLat_val (by omega) (by omega)]
      omega
    have hw0 : wrapLon lo 0 (2 ^ wlon) = lo := wrapLon_zero hloW
    obtain ⟨u, hu⟩ : ∃ u, wrapLon lo 1 (2 ^ wlon) = u := ⟨_, rfl⟩
    obtain ⟨v, hv⟩ : ∃ v, wrapLon lo (-1) (2 ^ wlon) = v := ⟨_, rfl⟩
    have huW : u < 2 ^ wlon := hu ▸ wrapLon_lt 1 (by omega)
    have hvW : v < 2 ^ wlon := hv ▸ wrapLon_lt (-1) (by omega)
    have hune : u ≠ lo := by
      rw [← hu, wrapLon_one hloW]
      split_ifs <;> omega
    have hvne : v ≠ lo := by
      rw [← hv, wrapLon_negOne hloW (by omega)]
      split_ifs <;> omega
    have huv : u ≠ v := by
      rw [← hu, ← hv, wrapLon_one hloW, wrapLon_negOne hloW (by omega)]
      split_ifs <;> omega
    have hmapped : (get_neighbors h).map parseIdx =
        [some (li + 1, lo, wlat, wlon), some (li + 1, u, wlat, wlon),
         some (li, u, wlat, wlon), some (li - 1, u, wlat, wlon),
         some (li - 1, lo, wlat, wlon), some (li - 1, v, wlat, wlon),
         some (li, v, wlat, wlon), some (li + 1, v, wlat, wlon)] := by
      unfold get_neighbors
      rw [hp]
      simp only [List.map_cons, List.map_nil]
      rw [hcN, hc0, hcS, hw0, hu, hv]
      rw [parseIdx_hashOfIdx (li + 1) lo wlat wlon k hw1 hw2 hk (by omega) hloW,
        parseIdx_hashOfIdx (li + 1) u wlat wlon k hw1 hw2 hk (by omega) huW,
        parseIdx_hashOfIdx li u wlat wlon k hw1 hw2 hk (by omega) huW,
        parseIdx_hashOfIdx (li - 1) u wlat wlon k hw1 hw2 hk (by omega) huW,
        parseIdx_hashOfIdx (li - 1) lo wlat wlon k hw1 hw2 hk (by omega) hloW,
        parseIdx_hashOfIdx (li - 1) v wlat wlon k hw1 hw2 hk (by omega) hvW,
        parseIdx_hashOfIdx li v wlat wlon k hw1 hw2 hk (by omega) hvW,
        parseIdx_hashOfIdx (li + 1) v wlat wlon k hw1 hw2 hk (by omega) hvW]
    refine ⟨List.Nodup.of_map parseIdx ?_, ?_⟩
    · rw [hmapped]
      simp only [List.nodup_cons, List.mem_cons, List.not_mem_nil, or_false,
        List.nodup_nil, and_true, Option.some.injEq, Prod.mk.injEq, not_or,
        true_and, not_false_eq_true]
      omega
    · intro hmem
      have hmem2 := List.mem_map_of_mem parseIdx hmem
      rw [hmapped, hp] at hmem2
      simp only [List.mem_cons, List.not_mem_nil, or_false, Option.some.injEq,
        Prod.mk.injEq] at hmem2
      omega

/-- C3 counterexample: `"b"` is a cell in the top latitude row; its clamped
north neighbor is `"b"` itself and its clamped NE neighbor equals its east
neighbor, so the eight returned strings are neither distinct nor free of the
input hash. -/
theorem neighbors_counterexample :
    "b" ∈ get_neighbors "b" ∧ ¬ (get_neighbors "b").Nodup := by
  decide

/-- Witness for the amended C3 at the concrete hash `"r"` (grid row 1 of 4,
last column 7 of 8 at precision 1). -/
theorem neighbors_spec_witness :
    (get_neighbors "r").length = 8 ∧
    parseIdx ((get_neighbors "r").getD 2 "") = some (1, 0, 2, 3) ∧
    (get_neighbors "r").Nodup ∧ "r" ∉ get_neighbors "r" :=
  ⟨neighbors_spec.1 "r" 1 7 2 3 (by decide),
   neighbors_spec.2.1 "r" 1 7 2 3 (by decide) (by decide),
   neighbors_spec.2.2 "r" 1 7 2 3 (by decide) (by decide) (by decide)⟩

/-- Modelled from the spec: one edge test of the planar ray cast -- the edge
between vertices `a` and `b` is crossed by the horizontal ray from `p` when
the second coordinates straddle `p.2` under the half-open rule
`(y_i > y) != (y_j > y)` and the edge's intersection with the ray lies
strictly to the right of `p.1`. -/
def rayCrosses (p a b : ℚ × ℚ) : Bool :=
  (decide (a.2 > p.2) != decide (b.2 > p.2)) &&
    decide (p.1 < (b.1 - a.1) * (p.2 - a.2) / (b.2 - a.2) + a.1)

/-- The edge list of a ring: consecutive vertex pairs plus the closing edge
from the last vertex back to the first (a repeated first vertex only adds a
degenerate edge that never crosses). -/
def ringEdges (ring : List (ℚ × ℚ)) : List ((ℚ × ℚ) × (ℚ × ℚ)) :=
  match ring with
  | [] => []
  | v :: _ => ring.zip (ring.tail ++ [v])

/-- Modelled from the spec: `point_in_polygon(p, ring)` -- planar even-odd
ray casting over the ring, treated as closed. -/
def point_in_polygon (p : ℚ × ℚ) (ring : List (ℚ × ℚ)) : Bool :=
  decide ((ringEdges ring).countP (fun e => rayCrosses p e.1 e.2) % 2 = 1)

/-- Modelled from the spec: `point_in_polygon_with_holes(p, exterior, holes)`
-- true iff `p` is inside the exterior ring and outside every hole ring. -/
def point_in_polygon_with_holes (p : ℚ × ℚ) (exterior : List (ℚ × ℚ))
    (holes : List (List (ℚ × ℚ))) : Bool :=
  point_in_polygon p exterior && holes.all (fun hole => ! point_in_polygon p hole)

/-- One polygon part: an exterior ring together with its hole rings. -/
abbrev PolyPart := List (ℚ × ℚ) × List (List (ℚ × ℚ))

/-- Modelled from the spec: the arithmetic-mean centroid of a ring's
vertices. -/
def ringCentroid (ring : List (ℚ × ℚ)) : ℚ × ℚ :=
  ((ring.map Prod.fst).sum / ring.length, (ring.map Prod.snd).sum / ring.length)

/-- Modelled from the spec: the largest part of a geometry -- the part whose
exterior ring has the most vertices, the first such part winning ties. -/
def largestPart : List PolyPart → Option PolyPart
  | [] => none
  | p :: ps =>
    some (ps.foldl (fun best q => if best.1.length < q.1.length then q else best) p)

/-- Modelled from the spec: the builder's precomputed centroid -- the vertex
mean of the exterior ring of the largest part, absent when the geometry has
no parts. -/
def computedCentroid (geometry : List PolyPart) : Option (ℚ × ℚ) :=
  (largestPart geometry).map (fun part => ringCentroid part.1)

/-- C1: `point_in_polygon_with_holes` is true iff the point is inside the
exterior ring and outside every hole ring; in particular, on the test
square `(0,0)..(4,4)` with hole `(1,1)..(3,3)` of the repository test suite,
the point `(0.5, 0.5)` (inside the exterior, in no hole) is accepted and the
point `(2, 2)` (inside the exterior but inside the hole) is rejected. -/
theorem pip_with_holes_spec :
    (∀ (p : ℚ × ℚ) (exterior : List (ℚ × ℚ)) (holes : List (List (ℚ × ℚ))),
      point_in_polygon_with_holes p exterior holes = true ↔
        (point_in_polygon p exterior = true ∧
          ∀ hole ∈ holes, point_in_polygon p hole = false)) ∧
    point_in_polygon_with_holes (1/2, 1/2) [(0, 0), (4, 0), (4, 4), (0, 4)]
      [[(1, 1), (3, 1), (3, 3), (1, 3)]] = true ∧
    point_in_polygon_with_holes (2, 2) [(0, 0), (4, 0), (4, 4), (0, 4)]
      [[(1, 1), (3, 1), (3, 3), (1, 3)]] = false := by
  refine ⟨?_, by with_unfolding_all decide, by with_unfolding_all decide⟩
  intro p exterior holes
  unfold point_in_polygon_with_holes
  rw [Bool.and_eq_true, List.all_eq_true]
  simp only [Bool.not_eq_true']

/-- Witness instantiating the C1 equivalence on the repository's test square
with its hole. -/
theorem pip_with_holes_spec_witness :
    point_in_polygon ((1:ℚ)/2, (1:ℚ)/2) [(0, 0), (4, 0), (4, 4), (0, 4)] = true ∧
    ∀ hole ∈ [[((1:ℚ), (1:ℚ)), (3, 1), (3, 3), (1, 3)]],
      point_in_polygon ((1:ℚ)/2, (1:ℚ)/2) hole = false :=
  (pip_with_holes_spec.1 (1/2, 1/2) [(0, 0), (4, 0), (4, 4), (0, 4)]
    [[(1, 1), (3, 1), (3, 3), (1, 3)]]).mp pip_with_holes_spec.2.1

/-- C9 counterexample: a record whose only part is a concave (C-shaped)
exterior ring; the vertex-mean centroid `(9/4, 2)` falls into the notch of
the C, where the PIP test rejects it. -/
theorem centroid_inside_counterexample :
    computedCentroid [([(0, 0), (4, 0), (4, 1), (1, 1), (1, 3), (4, 3), (4, 4), (0, 4)], [])] =
      some (9/4, 2) ∧
    point_in_polygon_with_holes (9/4, 2)
      [(0, 0), (4, 0), (4, 1), (1, 1), (1, 3), (4, 3), (4, 4), (0, 4)] [] = false := by
  constructor
  · with_unfolding_all decide
  · with_unfolding_all decide

/-- C9 (amended): the precomputed centroid is the vertex mean of the largest
part's exterior ring, but it need not lie inside that part for concave rings
(see the counterexample); whenever the largest part's exterior is an
axis-aligned rectangle with no holes, the centroid is the rectangle center
and the PIP test accepts it. -/
theorem centroid_inside_rectangle (geometry : List PolyPart) (a b c d : ℚ)
    (hab : a < b) (hcd : c < d)
    (hl : largestPart geometry = some ([(a, c), (a, d), (b, d), (b, c)], [])) :
    computedCentroid geometry = some ((a + b) / 2, (c + d) / 2) ∧
    point_in_polygon_with_holes ((a + b) / 2, (c + d) / 2)
      [(a, c), (a, d), (b, d), (b, c)] [] = true := by
  constructor
  · unfold computedCentroid
    rw [hl, Option.map_some']
    unfold ringCentroid
    simp only [List.map_cons, List.map_nil, List.sum_cons, List.sum_nil, List.length_cons,
      List.length_nil, Prod.mk.injEq]
    norm_num
    constructor <;> ring
  · have hpy1 : ¬ ((a, c).2 > ((a + b) / 2, (c + d) / 2).2) := by
      show ¬ (c > (c + d) / 2)
      push_neg
      linarith
    have hpy2 : ((a, d).2 > ((a + b) / 2, (c + d) / 2).2) := by
      show d > (c + d) / 2
      linarith
    have hpx1 : ¬ (((a + b) / 2, (c + d) / 2).1 <
        (((a, d).1 : ℚ) - ((a, c).1 : ℚ)) * (((a + b) / 2, (c + d) / 2).2 - ((a, c).2 : ℚ)) /
          (((a, d).2 : ℚ) - ((a, c).2 : ℚ)) + ((a, c).1 : ℚ)) := by
      show ¬ ((a + b) / 2 < (a - a) * ((c + d) / 2 - c) / (d - c) + a)
      have hz : (a - a) * ((c + d) / 2 - c) / (d - c) + a = a := by
        rw [show (a - a) = (0 : ℚ) by ring, zero_mul, zero_div, zero_add]
      rw [hz]
      push_neg
      linarith
    have hpx2 : (((a + b) / 2, (c + d) / 2).1 <
        (((b, c).1 : ℚ) - ((b, d).1 : ℚ)) * (((a + b) / 2, (c + d) / 2).2 - ((b, d).2 : ℚ)) /
          (((b, c).2 : ℚ) - ((b, d).2 : ℚ)) + ((b, d).1 : ℚ)) := by
      show (a + b) / 2 < (b - b) * ((c + d) / 2 - d) / (c - d) + b
      have hz : (b - b) * ((c + d) / 2 - d) / (c - d) + b = b := by
        rw [show (b - b) = (0 : ℚ) by ring, zero_mul, zero_div, zero_add]
      rw [hz]
      linarith
    have he1 : rayCrosses ((a + b) / 2, (c + d) / 2) (a, c) (a, d) = false := by
      unfold rayCrosses
      rw [decide_eq_false hpy1, decide_eq_true hpy2, decide_eq_false hpx1]
      rfl
    have he2 : rayCrosses ((a + b) / 2, (c + d) / 2) (a, d) (b, d) = false := by
      unfold rayCrosses
      rw [decide_eq_true hpy2]
      rfl
    have he3 : rayCrosses ((a + b) / 2, (c + d) / 2) (b, d) (b, c) = true := by
      unfold rayCrosses
      have hd : decide (((b, d).2 : ℚ) > ((a + b) / 2, (c + d) / 2).2) = true :=
        decide_eq_true hpy2
      have hc2 : decide (((b, c).2 : ℚ) > ((a + b) / 2, (c + d) / 2).2) = false :=
        decide_eq_false hpy1
      rw [hd, hc2, decide_eq_true hpx2]
      rfl
    have he4 : rayCrosses ((a + b) / 2, (c + d) / 2) (b, c) (a, c) = false := by
      unfold rayCrosses
      have hc1 : decide (((b, c).2 : ℚ) > ((a + b) / 2, (c + d) / 2).2) = false :=
        decide_eq_false hpy1
      rw [hc1]
      rfl
    unfold point_in_polygon_with_holes
    rw [List.all_nil, Bool.and_true]
    unfold point_in_polygon
    have hedges : ringEdges [(a, c), (a, d), (b, d), (b, c)] =
        [((a, c), (a, d)), ((a, d), (b, d)), ((b, d), (b, c)), ((b, c), (a, c))] := rfl
    rw [hedges]
    simp only [List.countP_cons, List.countP_nil, he1, he2, he3, he4]
    rfl

/-- Witness for the amended C9 on the unit square record. -/
theorem centroid_inside_rectangle_witness :
    computedCentroid [([(0, 0), (0, 1), (1, 1), (1, 0)], [])] = some (1/2, 1/2) ∧
    point_in_polygon_with_holes ((1:ℚ)/2, (1:ℚ)/2)
      [(0, 0), (0, 1), (1, 1), (1, 0)] [] = true := by
  have h := centroid_inside_rectangle [([(0, 0), (0, 1), (1, 1), (1, 0)], [])]
    0 1 0 1 (by norm_num) (by norm_num) (by with_unfolding_all decide)
  have e1 : ((0 : ℚ) + 1) / 2 = 1/2 := by norm_num
  rw [e1] at h
  exact h


/-- Modelled from the spec: the authoritative per-territory record of the
data model (section 3); `iso2`/`iso3` are `none` when missing, `bbox` is
`(min_lat, min_lon, max_lat, max_lon)` and `geometry` is the list of parts
(exterior ring with holes), a single polygon being a one-part list. -/
structure CountryRecord where
  id : Nat
  name : String
  iso2 : Option String
  iso3 : Option String
  continent : String
  timezone : String
  centroid : Option (ℚ × ℚ)
  bbox : ℚ × ℚ × ℚ × ℚ
  geometry : List PolyPart
  deriving DecidableEq, Repr

/-- Modelled from the spec: the loader's in-memory read-only state -- the
country records and the geohash inverted index. -/
structure Loader where
  records : List CountryRecord
  geohash_index : List (String × List Nat)
  deriving DecidableEq, Repr

/-- The id bucket of a geohash cell; empty when the cell is unindexed. -/
def Loader.bucket (L : Loader) (h : String) : List Nat :=
  (L.geohash_index.lookup h).getD []

/-- Look a record up by id. -/
def Loader.findRecord (L : Loader) (i : Nat) : Option CountryRecord :=
  L.records.find? (fun r => r.id == i)

/-- Modelled from the spec: a point is inside a country iff it is inside any
part of its geometry, considering that part's holes. -/
def CountryRecord.containsPoint (r : CountryRecord) (p : ℚ × ℚ) : Bool :=
  r.geometry.any (fun part => point_in_polygon_with_holes p part.1 part.2)

/-- Bounding-box area used by the disambiguation rule. -/
def bboxArea (r : CountryRecord) : ℚ :=
  (r.bbox.2.2.1 - r.bbox.1) * (r.bbox.2.2.2 - r.bbox.2.1)

/-- Modelled from the spec: the deterministic choice between two candidates
-- the smaller bounding-box area wins, ties broken by the lower id. -/
def betterCandidate (x y : CountryRecord) : CountryRecord :=
  if bboxArea x < bboxArea y then x
  else if bboxArea y < bboxArea x then y
  else if x.id ≤ y.id then x else y

/-- The candidate with the smallest bounding box, lowest id on ties. -/
def pickBest : List CountryRecord → Option CountryRecord
  | [] => none
  | r :: rs => some (rs.foldl betterCandidate r)

/-- Modelled from the spec: the `ForwardResult` value object (called
`GeoIntelResult` by the package API); all fields absent on a miss. -/
structure GeoIntelResult where
  country : Option String
  iso2 : Option String
  iso3 : Option String
  continent : Option String
  timezone : Option String
  confidence : ℚ
  deriving DecidableEq, Repr

/-- The absent forward result. -/
def emptyResult : GeoIntelResult := ⟨none, none, none, none, none, 0⟩

/-- A successful forward result carrying a record's metadata. -/
def mkResult (r : CountryRecord) (conf : ℚ) : GeoIntelResult :=
  ⟨some r.name, r.iso2, r.iso3, some r.continent, some r.timezone, conf⟩

/-- A value of the dictionary view of a result. -/
inductive PyVal where
  | str (s : String)
  | num (q : ℚ)
  | nil
  deriving DecidableEq, Repr

/-- An optional string field as a dictionary value. -/
def optVal : Option String → PyVal
  | some s => .str s
  | none => .nil

/-- Modelled from the spec and the test driver: `to_dict()` returns a
dictionary mirroring the result's fields, always containing the `country`
key, also for misses. -/
def GeoIntelResult.to_dict (r : GeoIntelResult) : List (String × PyVal) :=
  [("country", optVal r.country), ("iso2", optVal r.iso2), ("iso3", optVal r.iso3),
   ("continent", optVal r.continent), ("timezone", optVal r.timezone),
   ("confidence", .num r.confidence)]

/-- The geohash of a point at the resolver's fixed precision 6. -/
def hash6 (lat lon : ℚ) : String := geohashOf lat lon 6

/-- The records of a cell's bucket. -/
def Loader.bucketRecords (L : Loader) (h : String) : List CountryRecord :=
  (L.bucket h).filterMap L.findRecord

/-- The candidate records of the exact cell of the query point. -/
def candidates0 (L : Loader) (lat lon : ℚ) : List CountryRecord :=
  L.bucketRecords (hash6 lat lon)

/-- The candidate records of the eight neighboring cells. -/
def neighborCandidates (L : Loader) (lat lon : ℚ) : List CountryRecord :=
  ((get_neighbors (hash6 lat lon)).map (fun n => L.bucketRecords n)).flatten

/-- Modelled from the spec (section 4.4 steps 2-5): the candidate set after
the exact-cell lookup, the widening to the neighbor buckets when the cell is
empty, and the one retry widening when no candidate contains the point. -/
def finalCandidates (L : Loader) (lat lon : ℚ) : List CountryRecord :=
  let c0 := candidates0 L lat lon
  let s1 := if c0.isEmpty then neighborCandidates L lat lon else c0
  if (s1.filter (fun r => r.containsPoint (lat, lon))).isEmpty && !c0.isEmpty then
    c0 ++ neighborCandidates L lat lon
  else s1

/-- The candidates whose geometry contains the query point. -/
def finalMatches (L : Loader) (lat lon : ℚ) : List CountryRecord :=
  (finalCandidates L lat lon).filter (fun r => r.containsPoint (lat, lon))

/-- Whether resolution needed the neighbor widening (empty exact cell, or a
retry after the exact cell produced no containing candidate). -/
def usedWidening (L : Loader) (lat lon : ℚ) : Bool :=
  (candidates0 L lat lon).isEmpty ||
    (((if (candidates0 L lat lon).isEmpty then neighborCandidates L lat lon
       else candidates0 L lat lon).filter
        (fun r => r.containsPoint (lat, lon))).isEmpty)

/-- Modelled from the spec (section 4.4 step 6): the base confidence --
0.15 for the best-effort fallback, 0.50 after widening, 0.70 for a
disambiguated multi-match, 1.0 for a unique match in a singleton bucket and
0.85 for a unique match in a shared bucket. -/
def baseConfidence (L : Loader) (lat lon : ℚ) : ℚ :=
  if (finalMatches L lat lon).isEmpty then 15/100
  else if usedWidening L lat lon then 1/2
  else if 1 < (finalMatches L lat lon).length then 7/10
  else if (candidates0 L lat lon).length = 1 then 1
  else 85/100

/-- Modelled from the spec: the number of neighboring cell buckets whose
majority country (the bucket's best candidate under the deterministic
choice) disagrees with the answer. -/
def disagreeCount (L : Loader) (lat lon : ℚ) (r : CountryRecord) : Nat :=
  ((get_neighbors (hash6 lat lon)).filter (fun n =>
    match pickBest (L.bucketRecords n) with
    | some q => q.id != r.id
    | none => false)).length

/-- The final confidence: the base minus 0.05 per disagreeing neighbor,
clamped to the floor 0.10 on any success. -/
def finishConfidence (L : Loader) (lat lon : ℚ) (r : CountryRecord) : ℚ :=
  max (1/10) (baseConfidence L lat lon - (disagreeCount L lat lon r : ℚ) * (5/100))

/-- Modelled from the spec (section 4.4): the forward resolution core over a
loaded dataset, on validated inputs -- empty candidate set gives the absent
result; no containing candidate gives the smallest-bbox fallback at 0.15;
otherwise the (possibly disambiguated) match. -/
def resolveCore (L : Loader) (lat lon : ℚ) : GeoIntelResult :=
  if (finalCandidates L lat lon).isEmpty then emptyResult
  else
    match pickBest (if (finalMatches L lat lon).isEmpty then finalCandidates L lat lon
      else finalMatches L lat lon) with
    | none => emptyResult
    | some r => mkResult r (finishConfidence L lat lon r)

/-- Modelled from the spec: `resolve(lat, lon)` -- input validation followed
by the resolution core. -/
def resolveWith (L : Loader) (lat lon : ℚ) : Except GeoError GeoIntelResult :=
  if coordOutOfRange lat lon then .error .invalidCoordinate
  else .ok (resolveCore L lat lon)

/-- Modelled from the spec: the `ReverseResult` value object. -/
structure ReverseGeoIntelResult where
  country : Option String
  iso2 : Option String
  iso3 : Option String
  continent : Option String
  timezone : Option String
  latitude : Option ℚ
  longitude : Option ℚ
  deriving DecidableEq, Repr

/-- The absent reverse result. -/
def emptyReverse : ReverseGeoIntelResult := ⟨none, none, none, none, none, none, none⟩

/-- A successful reverse result carrying a record's metadata and centroid. -/
def mkReverse (r : CountryRecord) : ReverseGeoIntelResult :=
  ⟨some r.name, r.iso2, r.iso3, some r.continent, some r.timezone,
   r.centroid.map Prod.fst, r.centroid.map Prod.snd⟩

/-- Python-style strip of surrounding whitespace. -/
def strip (s : String) : String :=
  String.mk (((s.data.dropWhile Char.isWhitespace).reverse.dropWhile
    Char.isWhitespace).reverse)

/-- Character-wise uppercasing. -/
def upcase (s : String) : String := String.mk (s.data.map Char.toUpper)

/-- Character-wise lowercasing. -/
def lowcase (s : String) : String := String.mk (s.data.map Char.toLower)

/-- Substring containment on character lists. -/
def containsSub (needle hay : List Char) : Bool :=
  (List.range (hay.length + 1)).any (fun i => needle.isPrefixOf (hay.drop i))

/-- The shortest-name record, lowest id on ties, of a substring-match list. -/
def pickShortest : List CountryRecord → Option CountryRecord
  | [] => none
  | r :: rs =>
    some (rs.foldl (fun best q =>
      if q.name.length < best.name.length then q
      else if best.name.length < q.name.length then best
      else if best.id ≤ q.id then best else q) r)

/-- Modelled from the spec (section 4.5): `resolve_by_country(query)` --
strip, fail `EmptyQuery` on empty input, then ISO2 for length-2 queries,
ISO3 for length-3 queries, exact case-insensitive name match, substring name
match (shortest name, then lowest id); a no-match returns the absent result. -/
def resolve_by_country (L : Loader) (q : String) : Except GeoError ReverseGeoIntelResult :=
  if (strip q).length = 0 then .error .emptyQuery
  else if (strip q).length = 2 then
    match L.records.find? (fun r => r.iso2 == some (upcase (strip q))) with
    | some r => .ok (mkReverse r)
    | none => .ok emptyReverse
  else if (strip q).length = 3 then
    match L.records.find? (fun r => r.iso3 == some (upcase (strip q))) with
    | some r => .ok (mkReverse r)
    | none => .ok emptyReverse
  else
    match L.records.find? (fun r => lowcase r.name == lowcase (strip q)) with
    | some r => .ok (mkReverse r)
    | none =>
      match pickShortest (L.records.filter (fun r =>
        containsSub (lowcase (strip q)).data (lowcase r.name).data)) with
      | some r => .ok (mkReverse r)
      | none => .ok emptyReverse


/-- C8: out-of-range latitude or longitude makes both `encode` and the
forward resolver fail with `InvalidCoordinate` rather than clamping the
input or returning an empty result. -/
theorem out_of_range_invalid_coordinate (lat lon : ℚ) (k : Nat) (L : Loader)
    (h : lat < -90 ∨ 90 < lat ∨ lon < -180 ∨ 180 < lon) :
    encode lat lon k = .error .invalidCoordinate ∧
    resolveWith L lat lon = .error .invalidCoordinate := by
  have hr : coordOutOfRange lat lon = true := by
    unfold coordOutOfRange
    rcases h with h | h | h | h <;> simp [h]
  unfold encode resolveWith
  rw [hr]
  exact ⟨rfl, rfl⟩

/-- Witness for C8 at latitude 91. -/
theorem out_of_range_invalid_coordinate_witness :
    encode 91 0 6 = .error .invalidCoordinate ∧
    resolveWith ⟨[], []⟩ 91 0 = .error .invalidCoordinate :=
  out_of_range_invalid_coordinate 91 0 6 ⟨[], []⟩ (Or.inr (Or.inl (by norm_num)))

theorem baseConfidence_le_one (L : Loader) (lat lon : ℚ) : baseConfidence L lat lon ≤ 1 := by
  unfold baseConfidence
  split_ifs <;> norm_num

theorem finishConfidence_bounds (L : Loader) (lat lon : ℚ) (r : CountryRecord) :
    1/10 ≤ finishConfidence L lat lon r ∧ finishConfidence L lat lon r ≤ 1 := by
  unfold finishConfidence
  refine ⟨le_max_left _ _, ?_⟩
  apply max_le (by norm_num)
  have h1 : (0 : ℚ) ≤ (disagreeCount L lat lon r : ℚ) * (5/100) := by positivity
  linarith [baseConfidence_le_one L lat lon]

/-- C6: for every in-range input the forward confidence lies in [0, 1]; it
equals 0 exactly when the result carries no country; and whenever resolution
succeeded the per-neighbor deductions are clamped so the confidence never
drops below 0.10. -/
theorem confidence_in_range (L : Loader) (lat lon : ℚ) (res : GeoIntelResult)
    (h : resolveWith L lat lon = .ok res) :
    0 ≤ res.confidence ∧ res.confidence ≤ 1 ∧
      (res.confidence = 0 ↔ res.country = none) ∧
      (res.country ≠ none → 1/10 ≤ res.confidence) := by
  unfold resolveWith at h
  split at h
  · exact absurd h (by simp)
  · have hres : res = resolveCore L lat lon := by
      injection h with h2
      exact h2.symm
    subst hres
    unfold resolveCore
    split
    · refine ⟨by norm_num [emptyResult], by norm_num [emptyResult], by simp [emptyResult], ?_⟩
      intro hc
      exact absurd rfl hc
    · split
      · refine ⟨by norm_num [emptyResult], by norm_num [emptyResult], by simp [emptyResult], ?_⟩
        intro hc
        exact absurd rfl hc
      · rename_i r heq
        obtain ⟨hb1, hb2⟩ := finishConfidence_bounds L lat lon r
        refine ⟨by simpa [mkResult] using by linarith, by simpa [mkResult] using hb2, ?_, ?_⟩
        · constructor
          · intro h0
            simp only [mkResult] at h0
            rw [h0] at hb1
            norm_num at hb1
          · intro hc
            exact absurd hc (by simp [mkResult])
        · intro _
          simpa [mkResult] using hb1

/-- Witness for C6 on the empty loader at the origin. -/
theorem confidence_in_range_witness :
    0 ≤ emptyResult.confidence ∧ emptyResult.confidence ≤ 1 ∧
      (emptyResult.confidence = 0 ↔ emptyResult.country = none) ∧
      (emptyResult.country ≠ none → 1/10 ≤ emptyResult.confidence) :=
  confidence_in_range ⟨[], []⟩ 0 0 emptyResult (by with_unfolding_all rfl)

/-- The disambiguation order: smaller bounding-box area first, lower id on
area ties. -/
def keyLe (x y : CountryRecord) : Prop :=
  bboxArea x < bboxArea y ∨ (bboxArea x = bboxArea y ∧ x.id ≤ y.id)

theorem keyLe_refl (x : CountryRecord) : keyLe x x := Or.inr ⟨rfl, le_refl _⟩

theorem keyLe_trans {x y z : CountryRecord} (h1 : keyLe x y) (h2 : keyLe y z) : keyLe x z := by
  rcases h1 with h1 | ⟨h1a, h1b⟩ <;> rcases h2 with h2 | ⟨h2a, h2b⟩
  · exact Or.inl (lt_trans h1 h2)
  · exact Or.inl (lt_of_lt_of_le h1 (le_of_eq h2a))
  · exact Or.inl (lt_of_le_of_lt (le_of_eq h1a) h2)
  · exact Or.inr ⟨h1a.trans h2a, le_trans h1b h2b⟩

theorem betterCandidate_cases (x y : CountryRecord) :
    betterCandidate x y = x ∨ betterCandidate x y = y := by
  unfold betterCandidate
  split_ifs <;> simp

theorem keyLe_better_left (x y : CountryRecord) : keyLe (betterCandidate x y) x := by
  unfold betterCandidate
  split_ifs with h1 h2 h3
  · exact keyLe_refl x
  · exact Or.inl h2
  · exact keyLe_refl x
  · exact Or.inr ⟨le_antisymm (not_lt.mp h1) (not_lt.mp h2), Nat.le_of_not_le h3⟩

theorem keyLe_better_right (x y : CountryRecord) : keyLe (betterCandidate x y) y := by
  unfold betterCandidate
  split_ifs with h1 h2 h3
  · exact Or.inl h1
  · exact keyLe_refl y
  · exact Or.inr ⟨le_antisymm (not_lt.mp h2) (not_lt.mp h1), h3⟩
  · exact keyLe_refl y

theorem foldl_betterCandidate_spec (rs : List CountryRecord) :
    ∀ acc : CountryRecord,
      (rs.foldl betterCandidate acc = acc ∨ rs.foldl betterCandidate acc ∈ rs) ∧
      keyLe (rs.foldl betterCandidate acc) acc ∧
      ∀ m ∈ rs, keyLe (rs.foldl betterCandidate acc) m := by
  induction rs with
  | nil =>
    intro acc
    exact ⟨Or.inl rfl, keyLe_refl acc, by simp⟩
  | cons r rs ih =>
    intro acc
    obtain ⟨hmem, hacc, hall⟩ := ih (betterCandidate acc r)
    rw [List.foldl_cons]
    refine ⟨?_, keyLe_trans hacc (keyLe_better_left acc r), ?_⟩
    · rcases hmem with h | h
      · rcases betterCandidate_cases acc r with hc | hc
        · exact Or.inl (h.trans hc)
        · refine Or.inr ?_
          rw [h, hc]
          exact List.mem_cons_self r rs
      · exact Or.inr (List.mem_cons_of_mem r h)
    · intro m hm
      rcases List.mem_cons.mp hm with rfl | hm2
      · exact keyLe_trans hacc (keyLe_better_right acc m)
      · exact hall m hm2

theorem pickBest_spec (l : List CountryRecord) (hl : l ≠ []) :
    ∃ best, pickBest l = some best ∧ best ∈ l ∧ ∀ m ∈ l, keyLe best m := by
  match l with
  | [] => exact absurd rfl hl
  | r :: rs =>
    obtain ⟨hmem, hacc, hall⟩ := foldl_betterCandidate_spec rs r
    refine ⟨rs.foldl betterCandidate r, rfl, ?_, ?_⟩
    · rcases hmem with h | h
      · rw [h]
        exact List.mem_cons_self r rs
      · exact List.mem_cons_of_mem r h
    · intro m hm
      rcases List.mem_cons.mp hm with rfl | hm2
      · exact hacc
      · exact hall m hm2

theorem isEmpty_false_of_ne_nil {l : List CountryRecord} (hl : l ≠ []) :
    l.isEmpty = false := by
  cases l with
  | nil => exact absurd rfl hl
  | cons a t => rfl

/-- C5: when more than one candidate's geometry contains the query point,
the resolver returns the containing record with the smallest bounding-box
area, ties broken by the lowest id -- a deterministic outcome. -/
theorem disambiguation_smallest_bbox (L : Loader) (lat lon : ℚ)
    (hm : 1 < (finalMatches L lat lon).length) :
    ∃ best, pickBest (finalMatches L lat lon) = some best ∧
      best ∈ finalMatches L lat lon ∧
      (∀ m ∈ finalMatches L lat lon,
        bboxArea best < bboxArea m ∨
          (bboxArea best = bboxArea m ∧ best.id ≤ m.id)) ∧
      resolveCore L lat lon = mkResult best (finishConfidence L lat lon best) := by
  have hne : finalMatches L lat lon ≠ [] := by
    intro he
    rw [he] at hm
    simp at hm
  obtain ⟨best, hpick, hmem, hall⟩ := pickBest_spec (finalMatches L lat lon) hne
  have hcne : finalCandidates L lat lon ≠ [] := by
    intro he
    apply hne
    unfold finalMatches
    rw [he]
    rfl
  refine ⟨best, hpick, hmem, hall, ?_⟩
  unfold resolveCore
  rw [isEmpty_false_of_ne_nil hcne, isEmpty_false_of_ne_nil hne]
  simp only [Bool.false_eq_true, if_false]
  rw [hpick]

/-- The larger of two overlapping test territories around the origin. -/
def bigSquare : CountryRecord :=
  ⟨0, "Bigland", some "BG", some "BIG", "Testia", "UTC", some (0, 0),
   (-10, -10, 10, 10), [([(-10, -10), (10, -10), (10, 10), (-10, 10)], [])]⟩

/-- The smaller of two overlapping test territories around the origin. -/
def smallSquare : CountryRecord :=
  ⟨1, "Smallland", some "SM", some "SML", "Testia", "UTC", some (0, 0),
   (-5, -5, 5, 5), [([(-5, -5), (5, -5), (5, 5), (-5, 5)], [])]⟩

/-- A loader with both overlapping territories indexed in the origin cell. -/
def overlapLoader : Loader := ⟨[bigSquare, smallSquare], [("s00000", [0, 1])]⟩

/-- Witness for C5: at the origin both test territories contain the point
and the resolver must pick the smaller one. -/
theorem disambiguation_smallest_bbox_witness :
    ∃ best, pickBest (finalMatches overlapLoader 0 0) = some best ∧
      best ∈ finalMatches overlapLoader 0 0 ∧
      (∀ m ∈ finalMatches overlapLoader 0 0,
        bboxArea best < bboxArea m ∨
          (bboxArea best = bboxArea m ∧ best.id ≤ m.id)) ∧
      resolveCore overlapLoader 0 0 = mkResult best (finishConfidence overlapLoader 0 0 best) :=
  disambiguation_smallest_bbox overlapLoader 0 0 (by with_unfolding_all decide)

/-- C10: every forward result, misses included, exposes a dictionary view
that contains the `country` key and mirrors each field of the result. -/
theorem to_dict_spec (res : GeoIntelResult) :
    "country" ∈ res.to_dict.map Prod.fst ∧
    res.to_dict.lookup "country" = some (optVal res.country) ∧
    res.to_dict.lookup "iso2" = some (optVal res.iso2) ∧
    res.to_dict.lookup "iso3" = some (optVal res.iso3) ∧
    res.to_dict.lookup "continent" = some (optVal res.continent) ∧
    res.to_dict.lookup "timezone" = some (optVal res.timezone) ∧
    res.to_dict.lookup "confidence" = some (PyVal.num res.confidence) := by
  refine ⟨?_, rfl, rfl, rfl, rfl, rfl, rfl⟩
  show "country" ∈ ["country", "iso2", "iso3", "continent", "timezone", "confidence"]
  simp


/-- C4 (amended): when the exact cell bucket and all eight neighbor buckets
are empty, the forward resolver returns the absent result (all fields unset)
with confidence exactly 0 instead of raising an error, and the reverse
resolver likewise returns the absent result when nothing matches a non-empty
query; but when candidates exist and none of them contains the point, the
forward resolver instead returns a best-effort smallest-bbox candidate with
confidence 0.15 (see the counterexample). -/
theorem miss_returns_absent (L : Loader) (lat lon : ℚ) (q : String)
    (hin : coordOutOfRange lat lon = false)
    (h0 : L.bucket (hash6 lat lon) = [])
    (hn : ∀ n ∈ get_neighbors (hash6 lat lon), L.bucket n = [])
    (hq : strip q ≠ "")
    (hnomatch : ∀ r ∈ L.records,
      r.iso2 ≠ some (upcase (strip q)) ∧ r.iso3 ≠ some (upcase (strip q)) ∧
      lowcase r.name ≠ lowcase (strip q) ∧
      containsSub (lowcase (strip q)).data (lowcase r.name).data = false) :
    resolveWith L lat lon = .ok emptyResult ∧
    emptyResult.country = none ∧ emptyResult.confidence = 0 ∧
    resolve_by_country L q = .ok emptyReverse ∧
    emptyReverse.country = none ∧ emptyReverse.latitude = none := by
  have hc0 : candidates0 L lat lon = [] := by
    unfold candidates0 Loader.bucketRecords
    rw [h0]
    rfl
  have hcn : neighborCandidates L lat lon = [] := by
    unfold neighborCandidates
    rw [List.flatten_eq_nil_iff]
    intro l hl
    rw [List.mem_map] at hl
    obtain ⟨n, hn2, rfl⟩ := hl
    unfold Loader.bucketRecords
    rw [hn n hn2]
    rfl
  have hfc : finalCandidates L lat lon = [] := by
    unfold finalCandidates
    rw [hc0, hcn]
    rfl
  have hcore : resolveCore L lat lon = emptyResult := by
    unfold resolveCore
    rw [hfc]
    rfl
  have hforward : resolveWith L lat lon = .ok emptyResult := by
    unfold resolveWith
    rw [hin, hcore]
    rfl
  have hlen0 : (strip q).length ≠ 0 := by
    intro hl
    apply hq
    have hdata : (strip q).data = [] := List.eq_nil_of_length_eq_zero hl
    exact String.ext hdata
  have hfind2 : L.records.find? (fun r => r.iso2 == some (upcase (strip q))) = none := by
    rw [List.find?_eq_none]
    intro r hr
    simp only [beq_iff_eq]
    exact (hnomatch r hr).1
  have hfind3 : L.records.find? (fun r => r.iso3 == some (upcase (strip q))) = none := by
    rw [List.find?_eq_none]
    intro r hr
    simp only [beq_iff_eq]
    exact (hnomatch r hr).2.1
  have hfindn : L.records.find? (fun r => lowcase r.name == lowcase (strip q)) = none := by
    rw [List.find?_eq_none]
    intro r hr
    simp only [beq_iff_eq]
    exact (hnomatch r hr).2.2.1
  have hfilter : L.records.filter (fun r =>
      containsSub (lowcase (strip q)).data (lowcase r.name).data) = [] := by
    rw [List.filter_eq_nil]
    intro r hr
    rw [(hnomatch r hr).2.2.2]
    simp
  have hreverse : resolve_by_country L q = .ok emptyReverse := by
    unfold resolve_by_country
    split_ifs with hl0 hl2 hl3
    · exact absurd hl0 hlen0
    · rw [hfind2]
    · rw [hfind3]
    · rw [hfindn, hfilter]
      rfl
  exact ⟨hforward, rfl, rfl, hreverse, rfl, rfl⟩

/-- Witness for the amended C4 on the empty loader at the origin with the
unmatched query "XX". -/
theorem miss_returns_absent_witness :
    resolveWith ⟨[], []⟩ 0 0 = .ok emptyResult ∧
    emptyResult.country = none ∧ emptyResult.confidence = 0 ∧
    resolve_by_country ⟨[], []⟩ "XX" = .ok emptyReverse ∧
    emptyReverse.country = none ∧ emptyReverse.latitude = none :=
  miss_returns_absent ⟨[], []⟩ 0 0 "XX" (by with_unfolding_all rfl) rfl
    (fun n _ => rfl) (by decide) (by simp)

/-- A territory far away from the origin. -/
def farSquare : CountryRecord :=
  ⟨0, "Farland", some "FA", some "FAR", "Testia", "UTC", some (55, 55),
   (50, 50, 60, 60), [([(50, 50), (60, 50), (60, 60), (50, 60)], [])]⟩

/-- A loader that lists the far territory in the bucket of the origin's
cell. -/
def staleLoader : Loader := ⟨[farSquare], [("s00000", [0])]⟩

/-- C4 counterexample: no loaded geometry contains the origin, yet the
forward resolver returns the far territory as its best-effort fallback with
confidence 0.15 -- the fields are set and the confidence is nonzero, against
the claim that finding no containing country yields an absent result with
confidence 0. -/
theorem miss_returns_absent_counterexample :
    (∀ r ∈ staleLoader.records, r.containsPoint (0, 0) = false) ∧
    resolveWith staleLoader 0 0 = .ok (mkResult farSquare (15/100)) ∧
    (mkResult farSquare (15/100)).country = some "Farland" ∧
    (mkResult farSquare (15/100)).confidence ≠ 0 := by
  refine ⟨by with_unfolding_all decide, by with_unfolding_all rfl, rfl, ?_⟩
  norm_num [mkResult]

/-- If some element of a list satisfies the predicate, `find?` returns a
satisfying element of the list. -/
theorem find?_of_exists {α : Type} (p : α → Bool) (l : List α) (r : α)
    (hmem : r ∈ l) (hp : p r = true) :
    ∃ x, l.find? p = some x ∧ x ∈ l ∧ p x = true := by
  have hsome : (l.find? p).isSome := by
    rw [List.find?_isSome]
    exact ⟨r, hmem, hp⟩
  obtain ⟨x, hx⟩ := Option.isSome_iff_exists.mp hsome
  exact ⟨x, hx, List.mem_of_find?_eq_some hx, List.find?_some hx⟩

/-- C7 (amended): for every loaded record `r` with a non-missing ISO2 code,
reverse resolution by that code succeeds with a result whose iso2 equals the
code, and the result carries the precomputed centroid of the loaded record
that the code lookup resolves to; when `r` is the only loaded record bearing
the code, that record is `r` itself.  Likewise for ISO3.  (When another
loaded record shares the code, the result can carry that other record's
centroid instead of `r`'s; see the counterexample.) -/
theorem reverse_roundtrip :
    (∀ (L : Loader) (r : CountryRecord) (c : String),
      r ∈ L.records → r.iso2 = some c → strip c = c → c.length = 2 → upcase c = c →
      ∃ r2, r2 ∈ L.records ∧ r2.iso2 = some c ∧
        resolve_by_country L c = .ok (mkReverse r2) ∧
        (mkReverse r2).iso2 = some c ∧
        (mkReverse r2).latitude = r2.centroid.map Prod.fst ∧
        (mkReverse r2).longitude = r2.centroid.map Prod.snd ∧
        ((∀ x ∈ L.records, x.iso2 = some c → x = r) → r2 = r)) ∧
    (∀ (L : Loader) (r : CountryRecord) (c : String),
      r ∈ L.records → r.iso3 = some c → strip c = c → c.length = 3 → upcase c = c →
      ∃ r2, r2 ∈ L.records ∧ r2.iso3 = some c ∧
        resolve_by_country L c = .ok (mkReverse r2) ∧
        (mkReverse r2).iso3 = some c ∧
        (mkReverse r2).latitude = r2.centroid.map Prod.fst ∧
        (mkReverse r2).longitude = r2.centroid.map Prod.snd ∧
        ((∀ x ∈ L.records, x.iso3 = some c → x = r) → r2 = r)) := by
  constructor
  · intro L r c hmem hiso hstrip hlen hupc
    obtain ⟨r2, hfind, hmem2, hp2⟩ :=
      find?_of_exists (fun x => x.iso2 == some c) L.records r hmem (by simp [hiso])
    have hiso2 : r2.iso2 = some c := by simpa using hp2
    refine ⟨r2, hmem2, hiso2, ?_, by simp [mkReverse, hiso2], rfl, rfl,
      fun huniq => huniq r2 hmem2 hiso2⟩
    unfold resolve_by_country
    rw [hstrip, hupc, hlen]
    norm_num
    rw [hfind]
  · intro L r c hmem hiso hstrip hlen hupc
    obtain ⟨r2, hfind, hmem2, hp2⟩ :=
      find?_of_exists (fun x => x.iso3 == some c) L.records r hmem (by simp [hiso])
    have hiso3 : r2.iso3 = some c := by simpa using hp2
    refine ⟨r2, hmem2, hiso3, ?_, by simp [mkReverse, hiso3], rfl, rfl,
      fun huniq => huniq r2 hmem2 hiso3⟩
    unfold resolve_by_country
    rw [hstrip, hupc, hlen]
    norm_num
    rw [hfind]

/-- The first of two loaded test records sharing the ISO2 code `"AA"`. -/
def dupRecordA : CountryRecord :=
  ⟨0, "Aland One", some "AA", some "AAA", "Testia", "UTC", some (1, 1),
   (0, 0, 2, 2), [([(0, 0), (2, 0), (2, 2), (0, 2)], [])]⟩

/-- The second record bearing the duplicate code, with another centroid. -/
def dupRecordB : CountryRecord :=
  ⟨1, "Aland Two", some "AA", some "AAB", "Testia", "UTC", some (5, 5),
   (4, 4, 6, 6), [([(4, 4), (6, 4), (6, 6), (4, 6)], [])]⟩

/-- A loader holding both records with the duplicate ISO2 code. -/
def dupLoader : Loader := ⟨[dupRecordA, dupRecordB], []⟩

/-- C7 counterexample: `dupRecordB` is a loaded record with the non-missing
iso2 `"AA"`, and reverse resolution by `"AA"` does return a result whose
iso2 is `"AA"`, but the result carries `dupRecordA`'s precomputed centroid,
not `dupRecordB`'s -- the original claim fails for a record whose code
another loaded record shares. -/
theorem reverse_roundtrip_counterexample :
    dupRecordB ∈ dupLoader.records ∧ dupRecordB.iso2 = some "AA" ∧
    resolve_by_country dupLoader "AA" = .ok (mkReverse dupRecordA) ∧
    (mkReverse dupRecordA).iso2 = some "AA" ∧
    (mkReverse dupRecordA).latitude ≠ dupRecordB.centroid.map Prod.fst := by
  refine ⟨List.mem_cons_of_mem dupRecordA (List.mem_cons_self dupRecordB []),
    rfl, by with_unfolding_all rfl, rfl, by with_unfolding_all decide⟩

/-- A single-record test loader for the reverse round trips. -/
def usRecord : CountryRecord :=
  ⟨0, "United States", some "US", some "USA", "North America", "America/Nassau",
   some (39, -98), (24, -125, 49, -66), [([(24, -125), (49, -125), (49, -66), (24, -66)], [])]⟩

/-- The loader holding only `usRecord`. -/
def usLoader : Loader := ⟨[usRecord], []⟩

/-- Witness for the amended C7 on the single-record loader, by ISO2 and by
ISO3. -/
theorem reverse_roundtrip_witness :
    (∃ r2, r2 ∈ usLoader.records ∧ r2.iso2 = some "US" ∧
      resolve_by_country usLoader "US" = .ok (mkReverse r2) ∧
      (mkReverse r2).iso2 = some "US" ∧
      (mkReverse r2).latitude = r2.centroid.map Prod.fst ∧
      (mkReverse r2).longitude = r2.centroid.map Prod.snd ∧
      ((∀ x ∈ usLoader.records, x.iso2 = some "US" → x = usRecord) → r2 = usRecord)) ∧
    (∃ r2, r2 ∈ usLoader.records ∧ r2.iso3 = some "USA" ∧
      resolve_by_country usLoader "USA" = .ok (mkReverse r2) ∧
      (mkReverse r2).iso3 = some "USA" ∧
      (mkReverse r2).latitude = r2.centroid.map Prod.fst ∧
      (mkReverse r2).longitude = r2.centroid.map Prod.snd ∧
      ((∀ x ∈ usLoader.records, x.iso3 = some "USA" → x = usRecord) → r2 = usRecord)) :=
  ⟨reverse_roundtrip.1 usLoader usRecord "US" (List.mem_cons_self usRecord [])
      rfl (by decide) (by decide) (by decide),
   reverse_roundtrip.2 usLoader usRecord "USA" (List.mem_cons_self usRecord [])
      rfl (by decide) (by decide) (by decide)⟩

end GeoIntel
